import Mathlib

/-!
Verification model of the per-region change-data-capture (CDC) engine:
event classification, resolved-timestamp tracking, old-value resolution,
output batching and subscription validation.  The component implementation
is not part of the sources, so each definition is modelled from the design
document, with integration tests of the repository pinning the behavior
wherever they exercise it.
-/

namespace TikvCdc

abbrev Ts := Nat
abbrev Key := List Nat
abbrev Val := List Nat

/-- Modelled from the spec: a lock record tracked by a region's Resolver,
`(start_ts, key)` (section 3, "Lock record"). -/
structure LockRec where
  startTs : Ts
  key : Key
deriving DecidableEq

/-- Modelled from the spec: the per-region lock tracker (section 4.2,
`Resolver`), holding the set of tracked locks.  The resolver code itself is
missing from the sources; only its integration tests are present. -/
structure Resolver where
  locks : List LockRec
deriving DecidableEq

/-- Minimum `start_ts` over a list of lock records, `none` when empty. -/
def minStartTs : List LockRec → Option Ts
  | [] => none
  | l :: ls =>
    match minStartTs ls with
    | none => some l.startTs
    | some m => some (min l.startTs m)

/-- Modelled from the spec: `track(start_ts, key)` is idempotent
(section 4.2). -/
def Resolver.track (r : Resolver) (ts : Ts) (k : Key) : Resolver :=
  if LockRec.mk ts k ∈ r.locks then r else ⟨LockRec.mk ts k :: r.locks⟩

/-- Modelled from the spec: `untrack(start_ts, key)`; untracking a
never-tracked lock is a no-op, not an error (sections 4.2 and 7). -/
def Resolver.untrack (r : Resolver) (ts : Ts) (k : Key) : Resolver :=
  ⟨r.locks.filter (fun l => !(decide (l.startTs = ts) && decide (l.key = k)))⟩

/-- Modelled from the spec: `resolve(proposed_ts)` returns `proposed_ts`
capped by the minimum tracked lock `start_ts` (section 4.2).  The spec's
text says the cap is `min(start_ts) - 1`, but the repository's test
`test_cdc_write_rollback_when_no_lock` waits for the resolved timestamp to
reach exactly the outstanding lock's `start_ts` (10), which is unreachable
under a `- 1` cap; so the model caps at the minimum `start_ts` itself. -/
def Resolver.resolve (r : Resolver) (proposed : Ts) : Ts :=
  match minStartTs r.locks with
  | none => proposed
  | some m => min proposed m

theorem minStartTs_eq_none {ls : List LockRec} : minStartTs ls = none ↔ ls = [] := by
  cases ls with
  | nil => simp [minStartTs]
  | cons a as =>
    simp only [minStartTs]
    cases minStartTs as <;> simp

theorem minStartTs_le {ls : List LockRec} {m : Ts} (h : minStartTs ls = some m) :
    ∀ l ∈ ls, m ≤ l.startTs := by
  induction ls generalizing m with
  | nil => simp [minStartTs] at h
  | cons a as ih =>
    intro l hl
    simp only [minStartTs] at h
    rcases List.mem_cons.mp hl with rfl | hl'
    · cases hma : minStartTs as with
      | none =>
        rw [hma] at h
        simp only [Option.some.injEq] at h
        exact Nat.le_of_eq h.symm
      | some m' =>
        rw [hma] at h
        simp only [Option.some.injEq] at h
        exact h ▸ Nat.min_le_left _ _
    · cases hma : minStartTs as with
      | none =>
        rw [minStartTs_eq_none] at hma
        subst hma
        simp at hl'
      | some m' =>
        rw [hma] at h
        simp only [Option.some.injEq] at h
        exact Nat.le_trans (h ▸ Nat.min_le_right a.startTs m') (ih hma l hl')

theorem minStartTs_mem {ls : List LockRec} {m : Ts} (h : minStartTs ls = some m) :
    ∃ l ∈ ls, l.startTs = m := by
  induction ls generalizing m with
  | nil => simp [minStartTs] at h
  | cons a as ih =>
    simp only [minStartTs] at h
    cases hma : minStartTs as with
    | none =>
      rw [hma] at h
      simp only [Option.some.injEq] at h
      exact ⟨a, List.mem_cons_self a as, h⟩
    | some m' =>
      rw [hma] at h
      simp only [Option.some.injEq] at h
      rcases Nat.le_total a.startTs m' with hle | hle
      · refine ⟨a, List.mem_cons_self a as, ?_⟩
        rw [← h, Nat.min_eq_left hle]
      · obtain ⟨l, hl, hls⟩ := ih hma
        refine ⟨l, List.mem_cons_of_mem a hl, ?_⟩
        rw [hls, ← h, Nat.min_eq_right hle]

theorem resolve_le_proposed (r : Resolver) (p : Ts) : r.resolve p ≤ p := by
  unfold Resolver.resolve
  cases h : minStartTs r.locks with
  | none => exact Nat.le_refl p
  | some m => exact Nat.min_le_left p m

theorem resolve_le_lock (r : Resolver) (p : Ts) :
    ∀ l ∈ r.locks, r.resolve p ≤ l.startTs := by
  intro l hl
  unfold Resolver.resolve
  cases h : minStartTs r.locks with
  | none =>
    rw [minStartTs_eq_none] at h
    simp [h] at hl
  | some m =>
    exact Nat.le_trans (Nat.min_le_right p m) (minStartTs_le h l hl)

theorem resolve_nil (p : Ts) : Resolver.resolve ⟨[]⟩ p = p := rfl

theorem resolve_eq_proposed_or_lock (r : Resolver) (p : Ts) :
    r.resolve p = p ∨ ∃ l ∈ r.locks, r.resolve p = l.startTs := by
  unfold Resolver.resolve
  cases h : minStartTs r.locks with
  | none => exact Or.inl rfl
  | some m =>
    rcases Nat.le_total p m with hle | hle
    · exact Or.inl (Nat.min_eq_left hle)
    · obtain ⟨l, hl, hls⟩ := minStartTs_mem h
      refine Or.inr ⟨l, hl, ?_⟩
      show min p m = l.startTs
      rw [hls, Nat.min_eq_right hle]

/-- Lexicographic strict order on byte-string keys. -/
def keyLt : Key → Key → Bool
  | _, [] => false
  | [], _ :: _ => true
  | a :: as, b :: bs => if a < b then true else if a = b then keyLt as bs else false

/-- Membership of a key in a half-open range `[s, e)`. -/
def inRange (s e k : Key) : Bool := !keyLt k s && keyLt k e

/-- Modelled from the spec: the resolved-timestamp state of one region's
Delegate after initialization (sections 3 and 4.1): the observed key range,
the Resolver's tracked (durable) locks, the in-memory concurrency-control
locks overlapping the region, and the stored resolved timestamp. -/
structure DState where
  rangeStart : Key
  rangeEnd : Key
  resolver : Resolver
  memLocks : List LockRec
  resolvedTs : Ts
deriving DecidableEq

/-- Modelled from the spec: one observable transition of a region's
resolved-timestamp state machine — a lock observed on the apply path, a
commit or rollback untracking it, acquisition or release of an in-memory
concurrency-control lock, and the periodic resolved-ts advance tick
(sections 4.1, 4.2 and 4.4). -/
inductive DStep where
  | track (ts : Ts) (k : Key)
  | untrack (ts : Ts) (k : Key)
  | acquireMem (ts : Ts) (k : Key)
  | releaseMem (ts : Ts) (k : Key)
  | advance (tso : Ts)
deriving DecidableEq

/-- Proposed timestamp for an advance tick: the timestamp-authority value
capped by the minimum in-memory lock timestamp, as the Router's periodic
ticker computes it (section 4.4). -/
def tickProposed (tso : Ts) (memLocks : List LockRec) : Ts :=
  match minStartTs memLocks with
  | none => tso
  | some m => min tso m

/-- Modelled from the spec: effect of one transition.  A lock is tracked
only when its key lies in the Delegate's observed range (the incremental
scan and the apply-path observation are both range-filtered, as pinned by
`test_cdc_partial_subscription`); the advance tick stores
`max(previous, resolve(min(tso, min in-memory lock ts)))`, which keeps the
per-region resolved timestamp non-decreasing (section 3). -/
def applyStep (s : DState) : DStep → DState
  | .track ts k =>
    if inRange s.rangeStart s.rangeEnd k then
      { s with resolver := s.resolver.track ts k }
    else s
  | .untrack ts k => { s with resolver := s.resolver.untrack ts k }
  | .acquireMem ts k => { s with memLocks := LockRec.mk ts k :: s.memLocks }
  | .releaseMem ts k =>
    { s with memLocks :=
        s.memLocks.filter (fun l => !(decide (l.startTs = ts) && decide (l.key = k))) }
  | .advance tso =>
    { s with resolvedTs := max s.resolvedTs (s.resolver.resolve (tickProposed tso s.memLocks)) }

/-- Run a list of transitions. -/
def run (s : DState) (steps : List DStep) : DState := steps.foldl applyStep s

/-- Environment guarantee for one transition: a newly observed lock (durable
or in-memory) carries a `start_ts` at or above the current resolved
timestamp — the system-wide guarantee that the resolved timestamp is a lower
bound on all future transaction activity (section 3). -/
def wfStep (s : DState) : DStep → Bool
  | .track ts _ => decide (s.resolvedTs ≤ ts)
  | .acquireMem ts _ => decide (s.resolvedTs ≤ ts)
  | _ => true

/-- A trace whose every transition satisfies the environment guarantee. -/
def wfTrace : DState → List DStep → Bool
  | _, [] => true
  | s, st :: rest => wfStep s st && wfTrace (applyStep s st) rest

/-- The resolved timestamp is a lower bound on the `start_ts` of every lock
the Delegate currently tracks, durable or in-memory. -/
def lockBound (s : DState) : Bool :=
  s.resolver.locks.all (fun l => decide (s.resolvedTs ≤ l.startTs)) &&
  s.memLocks.all (fun l => decide (s.resolvedTs ≤ l.startTs))

theorem step_resolvedTs_mono (s : DState) (st : DStep) :
    s.resolvedTs ≤ (applyStep s st).resolvedTs := by
  cases st <;> simp [applyStep]
  split <;> simp

theorem run_resolvedTs_mono (s : DState) (steps : List DStep) :
    s.resolvedTs ≤ (run s steps).resolvedTs := by
  induction steps generalizing s with
  | nil => exact Nat.le_refl _
  | cons st rest ih =>
    exact Nat.le_trans (step_resolvedTs_mono s st) (ih (applyStep s st))

theorem run_append (s : DState) (a b : List DStep) :
    run s (a ++ b) = run (run s a) b := by
  simp [run, List.foldl_append]

theorem lockBound_iff (s : DState) :
    lockBound s = true ↔
      (∀ l ∈ s.resolver.locks, s.resolvedTs ≤ l.startTs) ∧
      (∀ l ∈ s.memLocks, s.resolvedTs ≤ l.startTs) := by
  simp [lockBound, List.all_eq_true]

theorem tickProposed_le_mem (tso : Ts) (memLocks : List LockRec) :
    ∀ l ∈ memLocks, tickProposed tso memLocks ≤ l.startTs := by
  intro l hl
  unfold tickProposed
  cases h : minStartTs memLocks with
  | none => rw [minStartTs_eq_none] at h; simp [h] at hl
  | some m => exact Nat.le_trans (Nat.min_le_right tso m) (minStartTs_le h l hl)

theorem step_lockBound (s : DState) (st : DStep)
    (hwf : wfStep s st = true) (hb : lockBound s = true) :
    lockBound (applyStep s st) = true := by
  rw [lockBound_iff] at hb ⊢
  obtain ⟨hlocks, hmem⟩ := hb
  cases st with
  | track ts k =>
    simp only [wfStep, decide_eq_true_eq] at hwf
    simp only [applyStep]
    split
    · constructor
      · intro l hl
        simp only [Resolver.track] at hl
        split at hl
        · exact hlocks l hl
        · rcases List.mem_cons.mp hl with rfl | hl'
          · exact hwf
          · exact hlocks l hl'
      · exact hmem
    · exact ⟨hlocks, hmem⟩
  | untrack ts k =>
    refine ⟨fun l hl => ?_, hmem⟩
    simp only [applyStep, Resolver.untrack] at hl
    exact hlocks l (List.mem_of_mem_filter hl)
  | acquireMem ts k =>
    simp only [wfStep, decide_eq_true_eq] at hwf
    refine ⟨hlocks, fun l hl => ?_⟩
    simp only [applyStep] at hl
    rcases List.mem_cons.mp hl with rfl | hl'
    · exact hwf
    · exact hmem l hl'
  | releaseMem ts k =>
    refine ⟨hlocks, fun l hl => ?_⟩
    simp only [applyStep] at hl
    exact hmem l (List.mem_of_mem_filter hl)
  | advance tso =>
    constructor
    · intro l hl
      simp only [applyStep]
      exact Nat.max_le.mpr ⟨hlocks l hl, resolve_le_lock _ _ l hl⟩
    · intro l hl
      simp only [applyStep]
      refine Nat.max_le.mpr ⟨hmem l hl, ?_⟩
      exact Nat.le_trans (resolve_le_proposed _ _) (tickProposed_le_mem tso s.memLocks l hl)

theorem run_lockBound (s : DState) (steps : List DStep)
    (hwf : wfTrace s steps = true) (hb : lockBound s = true) :
    lockBound (run s steps) = true := by
  induction steps generalizing s with
  | nil => exact hb
  | cons st rest ih =>
    simp only [wfTrace, Bool.and_eq_true] at hwf
    exact ih (applyStep s st) hwf.2 (step_lockBound s st hwf.1 hb)

/-- Modelled from the spec: creating a Delegate starts an incremental scan
over the union of the attached Downstreams' key ranges (section 4.1), so
only locks whose keys lie inside that range are ever observed and tracked;
`test_cdc_partial_subscription` pins that a lock outside the range does not
bound the region's resolved timestamp. -/
def initDelegate (regionLocks : List LockRec) (rs re : Key) : DState :=
  ⟨rs, re, ⟨regionLocks.filter (fun l => inRange rs re l.key)⟩, [], 0⟩

theorem le_tickProposed (tso : Ts) (mem : List LockRec) (b : Ts)
    (htso : b ≤ tso) (hmem : ∀ l ∈ mem, b ≤ l.startTs) :
    b ≤ tickProposed tso mem := by
  unfold tickProposed
  cases h : minStartTs mem with
  | none => exact htso
  | some m =>
    obtain ⟨l, hl, hls⟩ := minStartTs_mem h
    exact Nat.le_min.mpr ⟨htso, hls ▸ hmem l hl⟩

theorem le_resolve (r : Resolver) (p b : Ts)
    (hp : b ≤ p) (hlocks : ∀ l ∈ r.locks, b ≤ l.startTs) :
    b ≤ r.resolve p := by
  unfold Resolver.resolve
  cases h : minStartTs r.locks with
  | none => exact hp
  | some m =>
    obtain ⟨l, hl, hls⟩ := minStartTs_mem h
    exact Nat.le_min.mpr ⟨hp, hls ▸ hlocks l hl⟩

/-- C1 (amended): while a Delegate is Initialized, along any trace of
observations satisfying the environment guarantee, the stored resolved
timestamp — the value carried by successive `ResolvedTs` events — is
non-decreasing (the value after any prefix of the trace is at most the final
value), and at the end of the trace it is at most the `start_ts` of every
lock the Delegate tracks, durable or in-memory.  The region-wide form of the
bound in the original claim (every outstanding lock of the region, even
outside the subscribed ranges) fails on the code: see the counterexample. -/
theorem resolved_ts_monotone_and_bounded
    (s : DState) (steps : List DStep)
    (hwf : wfTrace s steps = true) (hb : lockBound s = true) :
    (∀ pre post, steps = pre ++ post →
      (run s pre).resolvedTs ≤ (run s steps).resolvedTs) ∧
    lockBound (run s steps) = true := by
  constructor
  · intro pre post hsplit
    subst hsplit
    rw [run_append]
    exact run_resolvedTs_mono _ post
  · exact run_lockBound s steps hwf hb

/-- Initial state used by the C1 witness. -/
def c1State : DState := ⟨[0], [5], ⟨[]⟩, [], 0⟩

/-- Trace used by the C1 witness: a lock tracked at ts 10, advance ticks, an
in-memory lock at ts 25, untracking, and further advances. -/
def c1Trace : List DStep :=
  [DStep.track 10 [1], DStep.advance 20, DStep.acquireMem 25 [2],
   DStep.advance 30, DStep.untrack 10 [1], DStep.advance 40]

/-- C1 witness: the amended theorem applied to a concrete trace, with both
hypotheses discharged by evaluation. -/
theorem resolved_ts_monotone_and_bounded_witness :
    wfTrace c1State c1Trace = true ∧ lockBound c1State = true ∧
    (run c1State [DStep.track 10 [1], DStep.advance 20]).resolvedTs ≤
      (run c1State c1Trace).resolvedTs ∧
    lockBound (run c1State c1Trace) = true :=
  ⟨by decide, by decide,
   (resolved_ts_monotone_and_bounded c1State c1Trace (by decide) (by decide)).1
     [DStep.track 10 [1], DStep.advance 20]
     [DStep.acquireMem 25 [2], DStep.advance 30, DStep.untrack 10 [1], DStep.advance 40]
     rfl,
   (resolved_ts_monotone_and_bounded c1State c1Trace (by decide) (by decide)).2⟩

/-- C1 counterexample: a region holds an outstanding durable lock
`(start_ts 10, key [1])`, but the subscription's range `[[2], [3])` does not
contain the key, so the scan never observes it and the first advance tick at
timestamp-authority value 20 moves the resolved timestamp to 20 > 10 —
contradicting "at every point it is less than or equal to the start_ts of
every currently outstanding lock in that region".  This is exactly the
behavior the repository's `test_cdc_partial_subscription` demands (it panics
unless resolved_ts exceeds the outside-range lock's start_ts). -/
theorem resolved_ts_region_bound_counterexample :
    LockRec.mk 10 [1] ∈ [LockRec.mk 10 [1]] ∧
    (run (initDelegate [LockRec.mk 10 [1]] [2] [3]) [DStep.advance 20]).resolvedTs = 20 ∧
    ¬ ((run (initDelegate [LockRec.mk 10 [1]] [2] [3]) [DStep.advance 20]).resolvedTs ≤ 10) := by
  decide

/-- C2 (amended): `resolve(proposed_ts)` returns `proposed_ts` when no locks
are tracked and `min(proposed_ts, min tracked start_ts)` otherwise — the
minimum tracked `start_ts` itself, not that minimum minus one (the claimed
`- 1` fails on the code: see the counterexample).  The result never exceeds
`proposed_ts` or any tracked lock's `start_ts`, and equals one of them.  At
an advance tick, whose proposed value is capped by the in-memory
concurrency-control locks, the result never exceeds any in-memory lock's
timestamp; and once an in-memory lock is released, the very next tick is
bounded only by what remains — releasing is reflected with no delay beyond
one polling interval. -/
theorem resolve_formula_and_mem_lock_bound (r : Resolver) (p : Ts) :
    (r.locks = [] → r.resolve p = p) ∧
    r.resolve p ≤ p ∧
    (∀ l ∈ r.locks, r.resolve p ≤ l.startTs) ∧
    (r.resolve p = p ∨ ∃ l ∈ r.locks, r.resolve p = l.startTs) ∧
    (∀ (tso : Ts) (mem : List LockRec), ∀ l ∈ mem,
      r.resolve (tickProposed tso mem) ≤ l.startTs) ∧
    (∀ (tso : Ts) (mem : List LockRec) (b : Ts), b ≤ tso →
      (∀ l ∈ mem, b ≤ l.startTs) → (∀ l ∈ r.locks, b ≤ l.startTs) →
      b ≤ r.resolve (tickProposed tso mem)) := by
  refine ⟨?_, resolve_le_proposed r p, resolve_le_lock r p,
    resolve_eq_proposed_or_lock r p, ?_, ?_⟩
  · intro h
    unfold Resolver.resolve
    rw [minStartTs_eq_none.mpr h]
  · intro tso mem l hl
    exact Nat.le_trans (resolve_le_proposed r _) (tickProposed_le_mem tso mem l hl)
  · intro tso mem b htso hmem hlocks
    exact le_resolve r _ b (le_tickProposed tso mem b htso hmem) hlocks

/-- C2 witness: the amended theorem applied to concrete resolvers, with all
embedded hypotheses discharged by evaluation (including the release case:
after the in-memory lock at ts 8 is the only one left, the next tick is
bounded below by 5). -/
theorem resolve_formula_and_mem_lock_bound_witness :
    Resolver.resolve ⟨[LockRec.mk 10 [0]]⟩ 20 ≤ 20 ∧
    Resolver.resolve ⟨[]⟩ 5 = 5 ∧
    Resolver.resolve ⟨[LockRec.mk 10 [0]]⟩ 20 ≤ 10 ∧
    5 ≤ Resolver.resolve ⟨[LockRec.mk 9 [0]]⟩ (tickProposed 6 [LockRec.mk 8 [1]]) :=
  ⟨(resolve_formula_and_mem_lock_bound ⟨[LockRec.mk 10 [0]]⟩ 20).2.1,
   (resolve_formula_and_mem_lock_bound ⟨[]⟩ 5).1 rfl,
   (resolve_formula_and_mem_lock_bound ⟨[LockRec.mk 10 [0]]⟩ 20).2.2.1
     (LockRec.mk 10 [0]) (by decide),
   (resolve_formula_and_mem_lock_bound ⟨[LockRec.mk 9 [0]]⟩ 0).2.2.2.2.2
     6 [LockRec.mk 8 [1]] 5 (by decide) (by decide) (by decide)⟩

/-- C2 counterexample: with one tracked lock at `start_ts = 10` and a
proposed timestamp of 20, `resolve` returns 10, not
`min(20, 10 - 1) = 9` as the claim states.  The repository's
`test_cdc_write_rollback_when_no_lock` pins this: it waits for the resolved
timestamp to become exactly 10 while the lock at `start_ts = 10` is still
outstanding, which is unreachable under the `- 1` formula. -/
theorem resolve_minus_one_counterexample :
    Resolver.resolve ⟨[LockRec.mk 10 [0]]⟩ 20 = 10 ∧
    Resolver.resolve ⟨[LockRec.mk 10 [0]]⟩ 20 ≠ min 20 (10 - 1) := by decide

/-- Kinds of `DataChange` events (section 3, "Event"): `committed` is a
prewrite and commit observed together (scan or 1PC); `initialized` is the
marker emitted once per Downstream after the scan buffer is drained. -/
inductive EventKind where
  | prewrite
  | commit
  | committed
  | rollback
  | initialized
deriving DecidableEq

/-- A `DataChange` event as delivered to Downstreams (section 3):
`commitTs = 0` for `prewrite` and `rollback`; `source` is the mutation
source tag used by `filter_loop` filtering. -/
structure Event where
  kind : EventKind
  key : Key
  value : Val
  oldValue : Val
  startTs : Ts
  commitTs : Ts
  source : Nat
deriving DecidableEq

/-- Projection of an event to the fields the ordering claims speak about:
kind, key, value, start_ts and commit_ts. -/
def Event.summary (e : Event) : EventKind × Key × Val × Ts × Ts :=
  (e.kind, e.key, e.value, e.startTs, e.commitTs)

/-- Modelled from the spec: a raw storage mutation observed on the
replication/apply path while a Delegate is Initialized (section 4.1,
"Live-event classification").  A one-phase commit arrives with no separate
prewrite; a bare pessimistic-lock acquisition is also observable but
produces no event. -/
inductive Obs where
  | prewrite (k : Key) (v : Val) (startTs : Ts) (src : Nat)
  | commit (k : Key) (v : Val) (startTs commitTs : Ts) (src : Nat)
  | rollback (k : Key) (startTs : Ts)
  | onePC (k : Key) (v : Val) (startTs commitTs : Ts) (src : Nat)
  | pessimisticLock (k : Key) (startTs : Ts)
deriving DecidableEq

/-- Old value attached to an event: looked up in the previous committed
state only when the Delegate computes old values (section 4.1, "Old value
resolution"); empty otherwise. -/
def oldValOf (readOV : Bool) (prev : Key → Option Val) (k : Key) : Val :=
  if readOV then (prev k).getD [] else []

/-- Modelled from the spec: live-event classification (section 4.1) — a new
lock emits `prewrite` with `commit_ts = 0`; a commit for a tracked lock
emits `commit`; a rollback emits `rollback` with `commit_ts = 0`; a
one-phase commit emits a single `committed`; a bare pessimistic lock emits
nothing. -/
def processObs (readOV : Bool) (prev : Key → Option Val) : Obs → Option Event
  | .prewrite k v s src => some ⟨.prewrite, k, v, oldValOf readOV prev k, s, 0, src⟩
  | .commit k v s c src => some ⟨.commit, k, v, [], s, c, src⟩
  | .rollback k s => some ⟨.rollback, k, [], [], s, 0, 0⟩
  | .onePC k v s c src => some ⟨.committed, k, v, oldValOf readOV prev k, s, c, src⟩
  | .pessimisticLock _ _ => none

/-- The stream of events a Delegate emits for a list of observed mutations,
in arrival order. -/
def liveEvents (readOV : Bool) (prev : Key → Option Val) (obs : List Obs) : List Event :=
  obs.filterMap (processObs readOV prev)

/-- Whether an observation concerns transaction `(key, start_ts)`. -/
def touches (k : Key) (s : Ts) : Obs → Bool
  | .prewrite k' _ s' _ => decide (k' = k) && decide (s' = s)
  | .commit k' _ s' _ _ => decide (k' = k) && decide (s' = s)
  | .rollback k' s' => decide (k' = k) && decide (s' = s)
  | .onePC k' _ s' _ _ => decide (k' = k) && decide (s' = s)
  | .pessimisticLock k' s' => decide (k' = k) && decide (s' = s)

/-- Events of the stream concerning transaction `(key, start_ts)`. -/
def txnEvents (k : Key) (s : Ts) (evs : List Event) : List Event :=
  evs.filter (fun e => decide (e.key = k) && decide (e.startTs = s))

theorem txnEvents_append (k : Key) (s : Ts) (a b : List Event) :
    txnEvents k s (a ++ b) = txnEvents k s a ++ txnEvents k s b := by
  simp [txnEvents]

theorem liveEvents_append (readOV : Bool) (prev : Key → Option Val) (a b : List Obs) :
    liveEvents readOV prev (a ++ b) = liveEvents readOV prev a ++ liveEvents readOV prev b := by
  simp [liveEvents]

theorem txnEvents_single_untouched (readOV : Bool) (prev : Key → Option Val)
    (k : Key) (s : Ts) (o : Obs) (h : touches k s o = false) :
    txnEvents k s (liveEvents readOV prev [o]) = [] := by
  cases o with
  | prewrite k' v s' src =>
    simp only [touches] at h
    simp [liveEvents, processObs, txnEvents, h]
  | commit k' v s' c src =>
    simp only [touches] at h
    simp [liveEvents, processObs, txnEvents, h]
  | rollback k' s' =>
    simp only [touches] at h
    simp [liveEvents, processObs, txnEvents, h]
  | onePC k' v s' c src =>
    simp only [touches] at h
    simp [liveEvents, processObs, txnEvents, h]
  | pessimisticLock k' s' =>
    simp [liveEvents, processObs, txnEvents]

theorem txnEvents_untouched (readOV : Bool) (prev : Key → Option Val)
    (k : Key) (s : Ts) (obs : List Obs)
    (h : obs.all (fun o => !touches k s o) = true) :
    txnEvents k s (liveEvents readOV prev obs) = [] := by
  induction obs with
  | nil => rfl
  | cons o rest ih =>
    rw [List.all_cons, Bool.and_eq_true] at h
    have h1 : touches k s o = false := by
      have h1' := h.1
      rwa [Bool.not_eq_true'] at h1'
    have hrest := ih h.2
    have hsplit : (o :: rest) = [o] ++ rest := rfl
    rw [hsplit, liveEvents_append, txnEvents_append, hrest, List.append_nil]
    exact txnEvents_single_untouched readOV prev k s o h1

theorem txnEvents_single_prewrite (readOV : Bool) (prev : Key → Option Val)
    (k : Key) (v : Val) (s : Ts) (src : Nat) :
    txnEvents k s (liveEvents readOV prev [Obs.prewrite k v s src]) =
      [⟨EventKind.prewrite, k, v, oldValOf readOV prev k, s, 0, src⟩] := by
  simp [liveEvents, processObs, txnEvents]

theorem txnEvents_single_commit (readOV : Bool) (prev : Key → Option Val)
    (k : Key) (v : Val) (s c : Ts) (src : Nat) :
    txnEvents k s (liveEvents readOV prev [Obs.commit k v s c src]) =
      [⟨EventKind.commit, k, v, [], s, c, src⟩] := by
  simp [liveEvents, processObs, txnEvents]

theorem txnEvents_single_onePC (readOV : Bool) (prev : Key → Option Val)
    (k : Key) (v : Val) (s c : Ts) (src : Nat) :
    txnEvents k s (liveEvents readOV prev [Obs.onePC k v s c src]) =
      [⟨EventKind.committed, k, v, oldValOf readOV prev k, s, c, src⟩] := by
  simp [liveEvents, processObs, txnEvents]

theorem txnEvents_single_rollback (readOV : Bool) (prev : Key → Option Val)
    (k : Key) (s : Ts) :
    txnEvents k s (liveEvents readOV prev [Obs.rollback k s]) =
      [⟨EventKind.rollback, k, [], [], s, 0, 0⟩] := by
  simp [liveEvents, processObs, txnEvents]

/-- C3: for a transaction on key `k` with start ts `s` whose prewrite is
applied before its commit (the apply path delivers them in that order) and
which no other observation of the stream concerns, the Delegate emits
exactly one `Prewrite` event with `commit_ts = 0` followed by exactly one
`Commit` event — never the reverse order — with identical key and value
across the pair; and a one-phase commit of the same data instead yields
exactly one `Committed` event carrying both `start_ts` and `commit_ts`. -/
theorem prewrite_then_commit_exactly_once
    (readOV : Bool) (prev : Key → Option Val) (k : Key) (v : Val) (s c : Ts) (src : Nat)
    (pre mid post : List Obs)
    (hpre : pre.all (fun o => !touches k s o) = true)
    (hmid : mid.all (fun o => !touches k s o) = true)
    (hpost : post.all (fun o => !touches k s o) = true) :
    (txnEvents k s (liveEvents readOV prev
        (pre ++ [Obs.prewrite k v s src] ++ mid ++ [Obs.commit k v s c src] ++ post))).map
        Event.summary
      = [(EventKind.prewrite, k, v, s, 0), (EventKind.commit, k, v, s, c)] ∧
    (txnEvents k s (liveEvents readOV prev
        (pre ++ [Obs.onePC k v s c src] ++ post))).map Event.summary
      = [(EventKind.committed, k, v, s, c)] := by
  constructor
  · rw [liveEvents_append, txnEvents_append,
      liveEvents_append, txnEvents_append,
      liveEvents_append, txnEvents_append,
      liveEvents_append, txnEvents_append,
      txnEvents_untouched readOV prev k s pre hpre,
      txnEvents_untouched readOV prev k s mid hmid,
      txnEvents_untouched readOV prev k s post hpost,
      txnEvents_single_prewrite, txnEvents_single_commit]
    simp [Event.summary]
  · rw [liveEvents_append, txnEvents_append,
      liveEvents_append, txnEvents_append,
      txnEvents_untouched readOV prev k s pre hpre,
      txnEvents_untouched readOV prev k s post hpost,
      txnEvents_single_onePC]
    simp [Event.summary]

/-- C3 witness: the theorem applied to a concrete stream — an unrelated
prewrite on another key, the transaction's prewrite and commit, and an
unrelated rollback afterwards — with all hypotheses discharged by
evaluation. -/
theorem prewrite_then_commit_exactly_once_witness :
    [Obs.prewrite [2] [8] 5 0].all (fun o => !touches [1] 5 o) = true ∧
    [Obs.rollback [1] 11].all (fun o => !touches [1] 5 o) = true ∧
    (txnEvents [1] 5 (liveEvents false (fun _ => none)
        ([Obs.prewrite [2] [8] 5 0] ++ [Obs.prewrite [1] [7] 5 0] ++ [] ++
          [Obs.commit [1] [7] 5 9 0] ++ [Obs.rollback [1] 11]))).map Event.summary
      = [(EventKind.prewrite, [1], [7], 5, 0), (EventKind.commit, [1], [7], 5, 9)] ∧
    (txnEvents [1] 5 (liveEvents false (fun _ => none)
        ([Obs.prewrite [2] [8] 5 0] ++ [Obs.onePC [1] [7] 5 9 0] ++
          [Obs.rollback [1] 11]))).map Event.summary
      = [(EventKind.committed, [1], [7], 5, 9)] :=
  ⟨by decide, by decide,
   (prewrite_then_commit_exactly_once false (fun _ => none) [1] [7] 5 9 0
      [Obs.prewrite [2] [8] 5 0] [] [Obs.rollback [1] 11]
      (by decide) (by decide) (by decide)).1,
   (prewrite_then_commit_exactly_once false (fun _ => none) [1] [7] 5 9 0
      [Obs.prewrite [2] [8] 5 0] [] [Obs.rollback [1] 11]
      (by decide) (by decide) (by decide)).2⟩

/-- A GC-fence value on a write record: either a pointer to the commit ts of
a valid newer version, or the unset/rolled-back marker meaning the record
was superseded with no valid successor (glossary, "GC fence"). -/
inductive FenceVal where
  | pointsTo (ts : Ts)
  | unsetOrRolledBack
deriving DecidableEq

/-- The type tag of an MVCC write record. -/
inductive WriteType where
  | put
  | delete
  | rollback
  | lock
deriving DecidableEq

/-- An MVCC write record: type, transaction start ts, (short) value, the
overlapping-rollback flag and the optional GC fence (glossary,
"Overlapping rollback" and "GC fence"). -/
structure WriteRec where
  wt : WriteType
  startTs : Ts
  value : Val
  overlappedRollback : Bool
  gcFence : Option FenceVal
deriving DecidableEq

/-- One MVCC version met by the incremental scan: either a pending lock (no
commit found for it) or a write record stored under commit slot `slotTs`. -/
inductive ScanVersion where
  | lockVer (k : Key) (v : Val) (startTs : Ts)
  | writeVer (k : Key) (w : WriteRec) (slotTs : Ts)
deriving DecidableEq

/-- Modelled from the spec: classification of one scanned MVCC version
(section 4.1) — a pending lock is emitted as `Prewrite` (no commit found), a
`put`/`delete` write record as `Committed` (commit found), and `rollback` /
`lock` records, as well as versions whose GC fence carries the
unset/rolled-back result (logically rolled back), are skipped.  A version
whose fence points to a valid newer version is still a genuine commit and is
emitted; `test_cdc_scan_ignore_gc_fence` pins that such a version surfaces
as `Committed`. -/
def scanEmit : ScanVersion → Option Event
  | .lockVer k v s => some ⟨.prewrite, k, v, [], s, 0, 0⟩
  | .writeVer k w slotTs =>
    match w.gcFence with
    | some .unsetOrRolledBack => none
    | _ =>
      match w.wt with
      | .put => some ⟨.committed, k, w.value, [], w.startTs, slotTs, 0⟩
      | .delete => some ⟨.committed, k, w.value, [], w.startTs, slotTs, 0⟩
      | .rollback => none
      | .lock => none

/-- Events produced by an incremental scan, in scan order. -/
def scanEvents (vs : List ScanVersion) : List Event := vs.filterMap scanEmit

/-- C4: every scanned MVCC version is emitted as `Prewrite` when no commit
is found (a pending lock) and as `Committed` when a commit is found (a
`put`/`delete` write record whose GC fence does not mark it rolled back);
and no version whose write record carries the unset/rolled-back GC-fence
result is ever emitted at all — in particular never as `Committed`. -/
theorem scan_classification_and_gc_fence
    (k : Key) (v : Val) (s slotTs : Ts) (w : WriteRec) :
    scanEmit (ScanVersion.lockVer k v s) =
      some ⟨EventKind.prewrite, k, v, [], s, 0, 0⟩ ∧
    ((w.wt = WriteType.put ∨ w.wt = WriteType.delete) →
      w.gcFence ≠ some FenceVal.unsetOrRolledBack →
      scanEmit (ScanVersion.writeVer k w slotTs) =
        some ⟨EventKind.committed, k, w.value, [], w.startTs, slotTs, 0⟩) ∧
    (w.gcFence = some FenceVal.unsetOrRolledBack →
      scanEmit (ScanVersion.writeVer k w slotTs) = none) := by
  refine ⟨rfl, ?_, ?_⟩
  · intro hwt hfence
    cases hf : w.gcFence with
    | none =>
      rcases hwt with h | h <;> simp [scanEmit, hf, h]
    | some f =>
      cases f with
      | pointsTo ts => rcases hwt with h | h <;> simp [scanEmit, hf, h]
      | unsetOrRolledBack => exact absurd hf hfence
  · intro hfence
    simp [scanEmit, hfence]

/-- C4 witness: the theorem applied to a concrete pending lock and to
concrete write records — one with a fence pointing at a valid newer version
(emitted as `Committed`) and one carrying the unset/rolled-back result
(skipped). -/
theorem scan_classification_and_gc_fence_witness :
    scanEmit (ScanVersion.lockVer [1] [7] 5) =
      some ⟨EventKind.prewrite, [1], [7], [], 5, 0, 0⟩ ∧
    scanEmit (ScanVersion.writeVer [1]
        ⟨WriteType.put, 5, [7], true, some (FenceVal.pointsTo 12)⟩ 9) =
      some ⟨EventKind.committed, [1], [7], [], 5, 9, 0⟩ ∧
    scanEmit (ScanVersion.writeVer [1]
        ⟨WriteType.put, 5, [7], true, some FenceVal.unsetOrRolledBack⟩ 9) = none :=
  ⟨(scan_classification_and_gc_fence [1] [7] 5 9
      ⟨WriteType.put, 5, [7], true, some (FenceVal.pointsTo 12)⟩).1,
   (scan_classification_and_gc_fence [1] [7] 5 9
      ⟨WriteType.put, 5, [7], true, some (FenceVal.pointsTo 12)⟩).2.1
     (Or.inl rfl) (by decide),
   (scan_classification_and_gc_fence [1] [7] 5 9
      ⟨WriteType.put, 5, [7], true, some FenceVal.unsetOrRolledBack⟩).2.2 rfl⟩

/-- Modelled from the spec: classification of a write record observed on the
live apply path (section 4.1).  When the record's GC fence is set, the
record is a rewrite of an already-emitted commit carrying an overlapping
rollback, and only the rollback of the overlapped transaction — whose
`start_ts` is this record's commit slot timestamp — is emitted, with
`commit_ts = 0`; `test_cdc_extract_rollback_if_gc_fence_set` pins this.
Otherwise `put`/`delete` records are emitted as `Commit` (even when the
overlapping-rollback flag is set without a fence), `rollback` records as
`Rollback` with `commit_ts = 0`, and `lock` records produce nothing. -/
def decodeWriteApply (k : Key) (w : WriteRec) (slotTs : Ts) : Option Event :=
  if w.gcFence.isSome then
    some ⟨.rollback, k, [], [], slotTs, 0, 0⟩
  else
    match w.wt with
    | .put => some ⟨.commit, k, w.value, [], w.startTs, slotTs, 0⟩
    | .delete => some ⟨.commit, k, w.value, [], w.startTs, slotTs, 0⟩
    | .rollback => some ⟨.rollback, k, [], [], w.startTs, 0, 0⟩
    | .lock => none

/-- C5 (amended): a commit record carrying the overlapping-rollback flag
alongside real committed data and no GC fence is emitted as a normal
`Commit` with the transaction's `start_ts`, `commit_ts` and value, never as
a `Rollback`; when the GC fence is set, the record is a rewrite of an
already-emitted commit and only the `Rollback` of the overlapped
transaction (`start_ts` = the record's commit slot, `commit_ts = 0`) is
emitted; and a `rollback` write record, which has no committed data for its
`start_ts`, is emitted as a `Rollback` event with `commit_ts = 0`. -/
theorem overlapped_rollback_commit_classification
    (k : Key) (w : WriteRec) (slotTs : Ts) :
    ((w.wt = WriteType.put ∨ w.wt = WriteType.delete) → w.gcFence = none →
      decodeWriteApply k w slotTs =
        some ⟨EventKind.commit, k, w.value, [], w.startTs, slotTs, 0⟩) ∧
    (w.gcFence.isSome = true →
      decodeWriteApply k w slotTs = some ⟨EventKind.rollback, k, [], [], slotTs, 0, 0⟩) ∧
    (w.wt = WriteType.rollback → w.gcFence = none →
      decodeWriteApply k w slotTs =
        some ⟨EventKind.rollback, k, [], [], w.startTs, 0, 0⟩) := by
  refine ⟨?_, ?_, ?_⟩
  · intro hwt hfence
    rcases hwt with h | h <;> simp [decodeWriteApply, hfence, h]
  · intro hfence
    simp [decodeWriteApply, hfence]
  · intro hwt hfence
    simp [decodeWriteApply, hfence, hwt]

/-- C5 witness: the amended theorem applied to concrete write records — a
commit with the overlapping-rollback flag and no fence (normal `Commit`), a
fenced rewrite (extracted `Rollback`), and a plain rollback record. -/
theorem overlapped_rollback_commit_classification_witness :
    decodeWriteApply [1] ⟨WriteType.put, 5, [7], true, none⟩ 9 =
      some ⟨EventKind.commit, [1], [7], [], 5, 9, 0⟩ ∧
    decodeWriteApply [1] ⟨WriteType.put, 5, [7], true, some (FenceVal.pointsTo 12)⟩ 9 =
      some ⟨EventKind.rollback, [1], [], [], 9, 0, 0⟩ ∧
    decodeWriteApply [1] ⟨WriteType.rollback, 5, [], false, none⟩ 9 =
      some ⟨EventKind.rollback, [1], [], [], 5, 0, 0⟩ :=
  ⟨(overlapped_rollback_commit_classification [1] ⟨WriteType.put, 5, [7], true, none⟩ 9).1
     (Or.inl rfl) rfl,
   (overlapped_rollback_commit_classification [1]
      ⟨WriteType.put, 5, [7], true, some (FenceVal.pointsTo 12)⟩ 9).2.1 rfl,
   (overlapped_rollback_commit_classification [1]
      ⟨WriteType.rollback, 5, [], false, none⟩ 9).2.2 rfl rfl⟩

/-- C5 counterexample: a write record that carries the overlapping-rollback
flag alongside real committed data (value `[7]` committed at slot 9 by the
transaction with `start_ts = 5`) but whose GC fence is set is emitted as a
`Rollback` of the overlapped transaction, not as a normal `Commit` — so "for
every commit record that carries an overlapping-rollback flag alongside real
committed data ... never a Rollback event" is false on the code.  This is
the behavior `test_cdc_extract_rollback_if_gc_fence_set` demands: after
`check_txn_status` folds a rollback into the existing commit record, the
subscriber receives a `Rollback` with `start_ts` equal to the record's
commit slot and `commit_ts = 0`, and no `Commit`. -/
theorem overlapped_rollback_emits_rollback_counterexample :
    (decodeWriteApply [1] ⟨WriteType.put, 5, [7], true, some (FenceVal.pointsTo 12)⟩ 9).map
        Event.kind = some EventKind.rollback ∧
    (decodeWriteApply [1] ⟨WriteType.put, 5, [7], true, some (FenceVal.pointsTo 12)⟩ 9).map
        Event.kind ≠ some EventKind.commit := by decide

/-- Modelled from the spec: one subscriber's filter state (section 3,
"Downstream"): key range, `filter_loop` and `read_old_value` flags. -/
structure Downstream where
  rangeStart : Key
  rangeEnd : Key
  filterLoop : Bool
  readOldValue : Bool
deriving DecidableEq

/-- Modelled from the spec: `filter_loop` suppression (section 4.1) — an
event is suppressed for a `filter_loop` Downstream when its mutation source
tag matches the filter configuration (a non-zero source tag, i.e. a
CDC-written mutation), except that `Rollback` events carry no data and are
never suppressed. -/
def suppressed (d : Downstream) (e : Event) : Bool :=
  d.filterLoop && decide (e.source ≠ 0) && !(decide (e.kind = EventKind.rollback))

/-- Modelled from the spec: range filtering plus `filter_loop` filtering — a
Downstream receives exactly the events whose key lies in its `[start, end)`
range and which are not suppressed (sections 4.1, "Range filtering" and
"filter_loop"). -/
def deliverTo (d : Downstream) (evs : List Event) : List Event :=
  evs.filter (fun e => inRange d.rangeStart d.rangeEnd e.key && !suppressed d e)

/-- C6: under a `filter_loop` subscription, for a transaction whose mutation
source tag matches the filter configuration (`src ≠ 0`) on an in-range key:
its `Prewrite` is suppressed, the `Commit` matching that suppressed
`Prewrite` is also suppressed, a one-phase `Committed` is suppressed, and a
`Rollback` of the suppressed transaction is still delivered. -/
theorem filter_loop_suppression
    (readOV : Bool) (prev : Key → Option Val) (d : Downstream)
    (k : Key) (v : Val) (s c : Ts) (src : Nat)
    (hfl : d.filterLoop = true) (hsrc : src ≠ 0)
    (hin : inRange d.rangeStart d.rangeEnd k = true) :
    deliverTo d (liveEvents readOV prev [Obs.prewrite k v s src]) = [] ∧
    deliverTo d (liveEvents readOV prev
      [Obs.prewrite k v s src, Obs.commit k v s c src]) = [] ∧
    deliverTo d (liveEvents readOV prev [Obs.onePC k v s c src]) = [] ∧
    (deliverTo d (liveEvents readOV prev
      [Obs.prewrite k v s src, Obs.rollback k s])).map Event.kind =
      [EventKind.rollback] := by
  refine ⟨?_, ?_, ?_, ?_⟩ <;>
    simp [deliverTo, liveEvents, processObs, suppressed, hfl, hsrc, hin]

/-- C6 witness: the theorem applied to a concrete `filter_loop` Downstream
and a transaction tagged with source 1, with all hypotheses discharged by
evaluation. -/
theorem filter_loop_suppression_witness :
    (Downstream.mk [0] [9] true false).filterLoop = true ∧
    (1 : Nat) ≠ 0 ∧
    inRange [0] [9] [1] = true ∧
    deliverTo (Downstream.mk [0] [9] true false)
      (liveEvents false (fun _ => none) [Obs.prewrite [1] [7] 5 1]) = [] ∧
    deliverTo (Downstream.mk [0] [9] true false)
      (liveEvents false (fun _ => none)
        [Obs.prewrite [1] [7] 5 1, Obs.commit [1] [7] 5 9 1]) = [] ∧
    (deliverTo (Downstream.mk [0] [9] true false)
      (liveEvents false (fun _ => none)
        [Obs.prewrite [1] [7] 5 1, Obs.rollback [1] 5])).map Event.kind =
      [EventKind.rollback] :=
  ⟨rfl, by decide, by decide,
   (filter_loop_suppression false (fun _ => none) (Downstream.mk [0] [9] true false)
      [1] [7] 5 9 1 rfl (by decide) (by decide)).1,
   (filter_loop_suppression false (fun _ => none) (Downstream.mk [0] [9] true false)
      [1] [7] 5 9 1 rfl (by decide) (by decide)).2.1,
   (filter_loop_suppression false (fun _ => none) (Downstream.mk [0] [9] true false)
      [1] [7] 5 9 1 rfl (by decide) (by decide)).2.2.2⟩

/-- Modelled from the spec: old-value attachment is a per-Delegate decision
— the Delegate computes old values as soon as at least one attached
Downstream requested them (section 4.1, "Old value resolution"), and
`test_old_value_multi_changefeeds` pins that a Downstream which did not
request old values still receives whatever the Delegate computed. -/
def delegateReadOV (ds : List Downstream) : Bool := ds.any (fun d => d.readOldValue)

/-- C8: when at least one attached Downstream requests old values, the
Delegate computes the old value for a `Prewrite` (and, for a one-phase
commit, a `Committed`) event that overwrites an existing key, and every
attached Downstream whose range covers the key and whose filter does not
suppress the event — including Downstreams that did not request old values —
receives the event carrying that computed old value. -/
theorem old_value_computed_for_all_downstreams
    (ds : List Downstream) (prev : Key → Option Val)
    (k : Key) (v ov : Val) (s c : Ts) (src : Nat)
    (hany : delegateReadOV ds = true) (hprev : prev k = some ov) :
    (∃ e, processObs (delegateReadOV ds) prev (Obs.prewrite k v s src) = some e ∧
      e.oldValue = ov ∧
      ∀ d ∈ ds, inRange d.rangeStart d.rangeEnd k = true →
        suppressed d e = false → deliverTo d [e] = [e]) ∧
    (∃ e, processObs (delegateReadOV ds) prev (Obs.onePC k v s c src) = some e ∧
      e.oldValue = ov ∧
      ∀ d ∈ ds, inRange d.rangeStart d.rangeEnd k = true →
        suppressed d e = false → deliverTo d [e] = [e]) := by
  constructor
  · refine ⟨⟨EventKind.prewrite, k, v, ov, s, 0, src⟩, ?_, rfl, ?_⟩
    · simp [processObs, oldValOf, hany, hprev]
    · intro d _ hin hns
      simp [deliverTo, hin, hns]
  · refine ⟨⟨EventKind.committed, k, v, ov, s, c, src⟩, ?_, rfl, ?_⟩
    · simp [processObs, oldValOf, hany, hprev]
    · intro d _ hin hns
      simp [deliverTo, hin, hns]

/-- C8 witness: two Downstreams, only the first requesting old values; the
theorem yields the prewrite event carrying old value `[3]`, delivered
unchanged to both, including the one that did not request old values. -/
theorem old_value_computed_for_all_downstreams_witness :
    delegateReadOV [Downstream.mk [0] [9] false true, Downstream.mk [0] [9] false false]
      = true ∧
    (fun k => if k = [1] then some [3] else none) [1] = some [3] ∧
    processObs
      (delegateReadOV [Downstream.mk [0] [9] false true, Downstream.mk [0] [9] false false])
      (fun k => if k = [1] then some [3] else none) (Obs.prewrite [1] [7] 5 0) =
      some ⟨EventKind.prewrite, [1], [7], [3], 5, 0, 0⟩ ∧
    deliverTo (Downstream.mk [0] [9] false false)
      [⟨EventKind.prewrite, [1], [7], [3], 5, 0, 0⟩] =
      [⟨EventKind.prewrite, [1], [7], [3], 5, 0, 0⟩] := by
  refine ⟨by decide, by decide, ?_, ?_⟩
  · obtain ⟨e, he, hov, _⟩ :=
      (old_value_computed_for_all_downstreams
        [Downstream.mk [0] [9] false true, Downstream.mk [0] [9] false false]
        (fun k => if k = [1] then some [3] else none) [1] [7] [3] 5 9 0
        (by decide) (by decide)).1
    rw [he]
    have : e = ⟨EventKind.prewrite, [1], [7], [3], 5, 0, 0⟩ := by
      have h' := he
      simp [processObs, oldValOf] at h'
      rw [← h']
      decide
    rw [this]
  · obtain ⟨e, he, hov, hall⟩ :=
      (old_value_computed_for_all_downstreams
        [Downstream.mk [0] [9] false true, Downstream.mk [0] [9] false false]
        (fun k => if k = [1] then some [3] else none) [1] [7] [3] 5 9 0
        (by decide) (by decide)).1
    have heq : e = ⟨EventKind.prewrite, [1], [7], [3], 5, 0, 0⟩ := by
      have h' := he
      simp [processObs, oldValOf] at h'
      rw [← h']
      decide
    rw [← heq]
    exact hall (Downstream.mk [0] [9] false false) (by decide) (by decide)
      (by rw [heq]; decide)

/-- C9: a rollback observed for a `(key, start_ts)` the Resolver never
tracked is benign — untracking is a no-op returning the resolver unchanged
(no error, and the model is a total function, so no panic); the `Rollback`
event is still emitted, and delivered to any Downstream whose filter rules
select it (key in range; rollbacks are never suppressed); and after the
no-op untrack, `resolve` still never exceeds the `start_ts` of any lock
that remains tracked, so processing the rollback cannot move the region's
resolved timestamp past the minimum tracked `start_ts`. -/
theorem rollback_without_tracked_lock_benign
    (r : Resolver) (k : Key) (s p : Ts)
    (readOV : Bool) (prev : Key → Option Val) (d : Downstream)
    (hnot : LockRec.mk s k ∉ r.locks)
    (hin : inRange d.rangeStart d.rangeEnd k = true) :
    r.untrack s k = r ∧
    (liveEvents readOV prev [Obs.rollback k s]).map Event.summary =
      [(EventKind.rollback, k, [], s, 0)] ∧
    (deliverTo d (liveEvents readOV prev [Obs.rollback k s])).map Event.summary =
      [(EventKind.rollback, k, [], s, 0)] ∧
    (∀ l ∈ (r.untrack s k).locks, (r.untrack s k).resolve p ≤ l.startTs) := by
  refine ⟨?_, ?_, ?_, fun l hl => resolve_le_lock _ p l hl⟩
  · unfold Resolver.untrack
    have hall : ∀ l ∈ r.locks,
        (!(decide (l.startTs = s) && decide (l.key = k))) = true := by
      intro l hl
      rw [Bool.not_eq_true', Bool.and_eq_false_iff]
      by_cases hts : l.startTs = s
      · right
        rw [decide_eq_false_iff_not]
        intro hk
        exact hnot (by cases l; cases hts; cases hk; exact hl)
      · left
        rw [decide_eq_false_iff_not]
        exact hts
    rw [List.filter_eq_self.mpr hall]
  · simp [liveEvents, processObs, Event.summary]
  · simp [deliverTo, liveEvents, processObs, suppressed, hin, Event.summary]

/-- C9 witness: the theorem applied to a resolver tracking only
`(10, [2])`, a rollback at `([1], 5)` that was never tracked, and an
in-range Downstream; all hypotheses discharged by evaluation. -/
theorem rollback_without_tracked_lock_benign_witness :
    LockRec.mk 5 [1] ∉ [LockRec.mk 10 [2]] ∧
    inRange [0] [9] [1] = true ∧
    Resolver.untrack ⟨[LockRec.mk 10 [2]]⟩ 5 [1] = ⟨[LockRec.mk 10 [2]]⟩ ∧
    (liveEvents false (fun _ => none) [Obs.rollback [1] 5]).map Event.summary =
      [(EventKind.rollback, [1], [], 5, 0)] ∧
    (∀ l ∈ (Resolver.untrack ⟨[LockRec.mk 10 [2]]⟩ 5 [1]).locks,
      (Resolver.untrack ⟨[LockRec.mk 10 [2]]⟩ 5 [1]).resolve 20 ≤ l.startTs) :=
  ⟨by decide, by decide,
   (rollback_without_tracked_lock_benign ⟨[LockRec.mk 10 [2]]⟩ [1] 5 20 false
      (fun _ => none) (Downstream.mk [0] [9] false false) (by decide) (by decide)).1,
   (rollback_without_tracked_lock_benign ⟨[LockRec.mk 10 [2]]⟩ [1] 5 20 false
      (fun _ => none) (Downstream.mk [0] [9] false false) (by decide) (by decide)).2.1,
   (rollback_without_tracked_lock_benign ⟨[LockRec.mk 10 [2]]⟩ [1] 5 20 false
      (fun _ => none) (Downstream.mk [0] [9] false false) (by decide) (by decide)).2.2.2⟩

/-- A region epoch: configuration version and version.  A freshly created
region always has both components at least 1; the zero epoch `⟨0, 0⟩` is the
default value of an unset epoch field. -/
structure Epoch where
  confVer : Nat
  ver : Nat
deriving DecidableEq

/-- Modelled from the spec: a subscribe request (section 6): region id,
region epoch, cluster id (and whether the requester's protocol version
carries one), and the Downstream id to register. -/
structure SubscribeReq where
  regionId : Nat
  epoch : Epoch
  clusterId : Nat
  hasClusterId : Bool
  downstreamId : Nat
deriving DecidableEq

/-- The Router's current knowledge of a region: its epoch and whether this
node is the region's leader. -/
structure RegionInfo where
  epoch : Epoch
  isLeader : Bool
deriving DecidableEq

/-- Modelled from the spec: the process-wide registry mapping region id to
the Delegate's registered Downstream ids (section 4.4). -/
structure Router where
  clusterId : Nat
  delegates : List (Nat × List Nat)
deriving DecidableEq

/-- Error kinds surfaced as a terminal `Error` event (section 7). -/
inductive ErrKind where
  | epochNotMatch
  | notLeader
  | clusterIdMismatch
  | duplicateRequest
deriving DecidableEq

/-- Outcome of a subscribe request: exactly one `Error` event, or a
successful attachment. -/
inductive SubscribeResp where
  | err (e : ErrKind)
  | attached
deriving DecidableEq

/-- Downstream ids currently registered for a region. -/
def registeredDs (rt : Router) (rid : Nat) : List Nat :=
  (rt.delegates.lookup rid).getD []

/-- Attach a Downstream id to a region's Delegate, creating the entry if the
region has none. -/
def attachDs (rt : Router) (rid did : Nat) : Router :=
  if (rt.delegates.lookup rid).isSome then
    ⟨rt.clusterId, rt.delegates.map (fun p =>
      if p.fst = rid then (p.fst, did :: p.snd) else p)⟩
  else
    ⟨rt.clusterId, (rid, [did]) :: rt.delegates⟩

/-- Modelled from the spec: subscribe validation order (section 4.4) —
cluster id (when the requester's protocol carries one), then region epoch
(any mismatch, in particular the always-stale zero epoch, yields
`EpochNotMatch` and creates no Delegate), then leadership, then duplicate
Downstream id; only a request passing all four attaches. -/
def handleSubscribe (rt : Router) (info : RegionInfo) (req : SubscribeReq) :
    Router × SubscribeResp :=
  if req.hasClusterId && !(decide (req.clusterId = rt.clusterId)) then
    (rt, .err .clusterIdMismatch)
  else if !(decide (req.epoch = info.epoch)) then
    (rt, .err .epochNotMatch)
  else if !info.isLeader then
    (rt, .err .notLeader)
  else if (registeredDs rt req.regionId).contains req.downstreamId then
    (rt, .err .duplicateRequest)
  else
    (attachDs rt req.regionId req.downstreamId, .attached)

/-- C10: a subscribe request with a zero region epoch (and a cluster id that
does not itself fail the earlier cluster check) is answered with exactly one
`Error{EpochNotMatch}` event, and the Router is left unchanged — no Delegate
is created or attached — regardless of the region's current state (any
epoch a live region can have, i.e. version at least 1, any leadership
status, any registry contents). -/
theorem zero_epoch_always_stale
    (rt : Router) (info : RegionInfo) (req : SubscribeReq)
    (hcluster : req.hasClusterId = true → req.clusterId = rt.clusterId)
    (hver : 1 ≤ info.epoch.ver)
    (hzero : req.epoch = ⟨0, 0⟩) :
    handleSubscribe rt info req = (rt, SubscribeResp.err ErrKind.epochNotMatch) := by
  unfold handleSubscribe
  have hc : (req.hasClusterId && !(decide (req.clusterId = rt.clusterId))) = false := by
    cases hf : req.hasClusterId with
    | false => rfl
    | true => simp [hcluster hf]
  rw [hc]
  have hne : ¬ (req.epoch = info.epoch) := by
    rw [hzero]
    intro h
    rw [← h] at hver
    exact absurd hver (by decide)
  simp [hne]

/-- C10 witness: the theorem applied to a concrete Router with an existing
Delegate, a leader region at epoch `⟨5, 3⟩` and a zero-epoch request; all
hypotheses discharged by evaluation. -/
theorem zero_epoch_always_stale_witness :
    ((SubscribeReq.mk 1 ⟨0, 0⟩ 7 true 42).hasClusterId = true →
      (SubscribeReq.mk 1 ⟨0, 0⟩ 7 true 42).clusterId = (Router.mk 7 [(1, [3])]).clusterId) ∧
    1 ≤ (RegionInfo.mk ⟨5, 3⟩ true).epoch.ver ∧
    handleSubscribe (Router.mk 7 [(1, [3])]) (RegionInfo.mk ⟨5, 3⟩ true)
        (SubscribeReq.mk 1 ⟨0, 0⟩ 7 true 42) =
      (Router.mk 7 [(1, [3])], SubscribeResp.err ErrKind.epochNotMatch) :=
  ⟨by decide, by decide,
   zero_epoch_always_stale (Router.mk 7 [(1, [3])]) (RegionInfo.mk ⟨5, 3⟩ true)
     (SubscribeReq.mk 1 ⟨0, 0⟩ 7 true 42) (by decide) (by decide) rfl⟩

/-- Transport size of one event: the bytes of key, value and old value. -/
def eventSize (e : Event) : Nat := e.key.length + e.value.length + e.oldValue.length

/-- Accumulator of the event batcher: finished batches, the batch being
filled, and its running byte total. -/
structure BatchAcc where
  done : List (List Event)
  cur : List Event
  curSize : Nat
deriving DecidableEq

/-- Modelled from the spec: output batching (section 4.8's "Output
batching" rule in section 4.1) — an event larger than the byte threshold is
flushed into a dedicated singleton batch; otherwise events accumulate into
the current batch until adding one would exceed the threshold, which starts
a new batch. -/
def batchPush (m : Nat) (acc : BatchAcc) (e : Event) : BatchAcc :=
  if m < eventSize e then
    ⟨acc.done ++ (if acc.cur = [] then [] else [acc.cur]) ++ [[e]], [], 0⟩
  else if m < acc.curSize + eventSize e then
    ⟨acc.done ++ [acc.cur], [e], eventSize e⟩
  else
    ⟨acc.done, acc.cur ++ [e], acc.curSize + eventSize e⟩

/-- Close the batcher, flushing a non-empty current batch. -/
def batchFinish (acc : BatchAcc) : List (List Event) :=
  acc.done ++ (if acc.cur = [] then [] else [acc.cur])

/-- Batches handed to the sink for a stream of events. -/
def batchEvents (m : Nat) (evs : List Event) : List (List Event) :=
  batchFinish (evs.foldl (batchPush m) ⟨[], [], 0⟩)

/-- A batch the sink may receive: either a dedicated singleton holding one
oversized event, or a batch of threshold-sized-or-smaller events whose total
stays within the threshold. -/
def goodBatch (m : Nat) (b : List Event) : Prop :=
  (∃ e, b = [e] ∧ m < eventSize e) ∨
  ((∀ e ∈ b, eventSize e ≤ m) ∧ (b.map eventSize).sum ≤ m)

/-- Batcher invariant: the running total is accurate and within the
threshold, current-batch events are not oversized, and every finished batch
is good. -/
def accInv (m : Nat) (acc : BatchAcc) : Prop :=
  acc.curSize = (acc.cur.map eventSize).sum ∧
  acc.curSize ≤ m ∧
  (∀ e ∈ acc.cur, eventSize e ≤ m) ∧
  (∀ b ∈ acc.done, goodBatch m b)

theorem flatten_if_cur (cur : List Event) :
    (if cur = [] then ([] : List (List Event)) else [cur]).flatten = cur := by
  by_cases hc : cur = []
  · simp [hc]
  · simp [hc]

theorem batchPush_join (m : Nat) (acc : BatchAcc) (e : Event) :
    (batchPush m acc e).done.flatten ++ (batchPush m acc e).cur =
      acc.done.flatten ++ acc.cur ++ [e] := by
  unfold batchPush
  by_cases h1 : m < eventSize e
  · simp [h1, flatten_if_cur]
  · by_cases h2 : m < acc.curSize + eventSize e
    · simp [h1, h2]
    · simp [h1, h2]

theorem batchPush_inv (m : Nat) (acc : BatchAcc) (e : Event)
    (h : accInv m acc) : accInv m (batchPush m acc e) := by
  obtain ⟨hsz, hle, hsmall, hdone⟩ := h
  unfold batchPush
  by_cases h1 : m < eventSize e
  · refine ⟨by simp [h1], by simp [h1], by simp [h1], ?_⟩
    simp only [h1, if_true]
    intro b hb
    rcases List.mem_append.mp hb with hb' | hb'
    · rcases List.mem_append.mp hb' with hb'' | hb''
      · exact hdone b hb''
      · have : b = acc.cur := by
          by_cases hc : acc.cur = []
          · rw [if_pos hc] at hb''; simp at hb''
          · rw [if_neg hc] at hb''; simpa using hb''
        subst this
        exact Or.inr ⟨hsmall, by rw [← hsz]; exact hle⟩
    · have : b = [e] := by simpa using hb'
      subst this
      exact Or.inl ⟨e, rfl, h1⟩
  · by_cases h2 : m < acc.curSize + eventSize e
    · refine ⟨by simp [h1, h2], ?_, ?_, ?_⟩
      · simp only [h1, if_false, h2, if_true]
        omega
      · simp only [h1, if_false, h2, if_true]
        intro x hx
        have : x = e := by simpa using hx
        subst this
        omega
      · simp only [h1, if_false, h2, if_true]
        intro b hb
        rcases List.mem_append.mp hb with hb' | hb'
        · exact hdone b hb'
        · have : b = acc.cur := by simpa using hb'
          subst this
          exact Or.inr ⟨hsmall, by rw [← hsz]; exact hle⟩
    · refine ⟨?_, ?_, ?_, ?_⟩
      · simp only [h1, if_false, h2, if_false]
        simp [hsz]
      · simp only [h1, if_false, h2, if_false]
        omega
      · simp only [h1, if_false, h2, if_false]
        intro x hx
        rcases List.mem_append.mp hx with hx' | hx'
        · exact hsmall x hx'
        · have : x = e := by simpa using hx'
          subst this
          omega
      · simp only [h1, if_false, h2, if_false]
        exact hdone

theorem batchFold_join (m : Nat) (evs : List Event) (acc : BatchAcc) :
    (evs.foldl (batchPush m) acc).done.flatten ++ (evs.foldl (batchPush m) acc).cur =
      acc.done.flatten ++ acc.cur ++ evs := by
  induction evs generalizing acc with
  | nil => simp
  | cons e rest ih =>
    rw [List.foldl_cons, ih (batchPush m acc e), batchPush_join]
    simp

theorem batchFold_inv (m : Nat) (evs : List Event) (acc : BatchAcc)
    (h : accInv m acc) : accInv m (evs.foldl (batchPush m) acc) := by
  induction evs generalizing acc with
  | nil => exact h
  | cons e rest ih => exact ih (batchPush m acc e) (batchPush_inv m acc e h)

theorem batchFinish_good (m : Nat) (acc : BatchAcc) (h : accInv m acc) :
    ∀ b ∈ batchFinish acc, goodBatch m b := by
  obtain ⟨hsz, hle, hsmall, hdone⟩ := h
  intro b hb
  rcases List.mem_append.mp hb with hb' | hb'
  · exact hdone b hb'
  · have : b = acc.cur := by
      by_cases hc : acc.cur = []
      · rw [if_pos hc] at hb'; simp at hb'
      · rw [if_neg hc] at hb'; simpa using hb'
    subst this
    exact Or.inr ⟨hsmall, by rw [← hsz]; exact hle⟩

/-- C7: batching a stream of events preserves the stream exactly (the
concatenation of the batches is the input, so a small write following an
oversized one lands in a later batch, never merged into the oversized
batch); every batch containing an event larger than the byte threshold is a
dedicated singleton holding only that event; and every batch of
threshold-sized-or-smaller events has total size within the threshold —
events accumulate into one batch only until the total-bytes threshold would
be exceeded. -/
theorem oversized_event_in_dedicated_batch (m : Nat) (evs : List Event) :
    (batchEvents m evs).flatten = evs ∧
    (∀ b ∈ batchEvents m evs, ∀ e ∈ b, m < eventSize e → b = [e]) ∧
    (∀ b ∈ batchEvents m evs, (∀ e ∈ b, eventSize e ≤ m) →
      (b.map eventSize).sum ≤ m) := by
  have hinv0 : accInv m ⟨[], [], 0⟩ := by
    refine ⟨rfl, Nat.zero_le m, ?_, ?_⟩ <;> intro x hx <;> simp at hx
  have hinv := batchFold_inv m evs ⟨[], [], 0⟩ hinv0
  have hgood := batchFinish_good m _ hinv
  refine ⟨?_, ?_, ?_⟩
  · unfold batchEvents batchFinish
    rw [List.flatten_append, flatten_if_cur]
    have := batchFold_join m evs ⟨[], [], 0⟩
    simpa using this
  · intro b hb e he hover
    rcases hgood b hb with ⟨e', hbe, _⟩ | ⟨hall, _⟩
    · subst hbe
      have : e = e' := by simpa using he
      rw [this]
    · exact absurd (hall e he) (by omega)
  · intro b hb hall
    rcases hgood b hb with ⟨e', hbe, hbig⟩ | ⟨_, hsum⟩
    · subst hbe
      have := hall e' (by simp)
      omega
    · exact hsum

/-- Events used by the C7 witness: an oversized value (5 bytes against a
threshold of 4) between two small writes on other keys. -/
def c7Events : List Event :=
  [⟨EventKind.committed, [1], [7], [], 5, 9, 0⟩,
   ⟨EventKind.committed, [2], [7, 7, 7, 7, 7], [], 5, 9, 0⟩,
   ⟨EventKind.committed, [3], [8], [], 6, 10, 0⟩]

/-- C7 witness: the theorem applied at threshold 4 to a concrete stream,
with the embedded hypotheses discharged by evaluation: the oversized event
sits alone in its batch and the following small write is in the next batch. -/
theorem oversized_event_in_dedicated_batch_witness :
    (batchEvents 4 c7Events).flatten = c7Events ∧
    (batchEvents 4 c7Events =
      [[⟨EventKind.committed, [1], [7], [], 5, 9, 0⟩],
       [⟨EventKind.committed, [2], [7, 7, 7, 7, 7], [], 5, 9, 0⟩],
       [⟨EventKind.committed, [3], [8], [], 6, 10, 0⟩]]) ∧
    [⟨EventKind.committed, [2], [7, 7, 7, 7, 7], [], 5, 9, 0⟩] ∈ batchEvents 4 c7Events ∧
    ((⟨EventKind.committed, [2], [7, 7, 7, 7, 7], [], 5, 9, 0⟩ : Event) ∈
        [(⟨EventKind.committed, [2], [7, 7, 7, 7, 7], [], 5, 9, 0⟩ : Event)]) ∧
    ([(⟨EventKind.committed, [2], [7, 7, 7, 7, 7], [], 5, 9, 0⟩ : Event)] =
      [⟨EventKind.committed, [2], [7, 7, 7, 7, 7], [], 5, 9, 0⟩]) :=
  ⟨(oversized_event_in_dedicated_batch 4 c7Events).1,
   by decide,
   by decide,
   by decide,
   (oversized_event_in_dedicated_batch 4 c7Events).2.1
     [⟨EventKind.committed, [2], [7, 7, 7, 7, 7], [], 5, 9, 0⟩] (by decide)
     ⟨EventKind.committed, [2], [7, 7, 7, 7, 7], [], 5, 9, 0⟩ (by decide) (by decide)⟩

end TikvCdc
